import Mathlib

/-!
Verification model of the audio-transcriber repository.

The Python sources are shallowly embedded: times (floats in the source) are
modelled as exact rationals, Python strings as Lean strings with the string
operations carried out on their character lists, and the transcript file as
the list of its lines (every write in the source ends in a newline, so the
file is always a sequence of full lines; segment texts are single lines).
Fallible Python calls are modelled with Option / an explicit result type.
-/

set_option allowUnsafeReducibility true
attribute [local semireducible] Rat.mul Rat.add Rat.sub Rat.blt Rat.floor
  Rat.maybeNormalize Rat.normalize Rat.inv Rat.div Rat.neg Rat.ofScientific

/-! ## Character and list utilities shared by the models -/

/-- Characters removed by Python str.strip with no argument (ASCII whitespace:
space, tab, newline, carriage return, vertical tab, form feed). -/
def isSpaceCh (c : Char) : Bool :=
  c.toNat == 32 || c.toNat == 9 || c.toNat == 10 || c.toNat == 13 ||
    c.toNat == 11 || c.toNat == 12

/-- Model of Python str.strip on a character list. -/
def pyStrip (cs : List Char) : List Char :=
  ((cs.dropWhile isSpaceCh).reverse.dropWhile isSpaceCh).reverse

/-- Decimal digit character for a digit value below ten. -/
def digitChar : ℕ → Char
  | 0 => '0' | 1 => '1' | 2 => '2' | 3 => '3' | 4 => '4'
  | 5 => '5' | 6 => '6' | 7 => '7' | 8 => '8' | 9 => '9'
  | _ => '?'

/-- Numeric value of a decimal digit character. -/
def charVal (c : Char) : ℕ := c.toNat - 48

/-- Decimal digit test on a character, by code point. -/
def isDigitCh (c : Char) : Bool := 48 ≤ c.toNat && c.toNat ≤ 57

/-- Little-endian decimal digits of a natural number, with explicit fuel. -/
def natDigitsRev : ℕ → ℕ → List ℕ
  | 0, _ => []
  | _ + 1, 0 => []
  | fuel + 1, n + 1 => ((n + 1) % 10) :: natDigitsRev fuel ((n + 1) / 10)

/-- Decimal character rendering of a natural number (Python rendering of int). -/
def natChars (n : ℕ) : List Char :=
  if n = 0 then ['0'] else ((natDigitsRev n n).reverse.map digitChar)

/-- Value of a decimal digit string, as Python int parsing computes it. -/
def parseNatV (cs : List Char) : ℕ :=
  cs.foldl (fun a c => 10 * a + charVal c) 0

/-- Boolean list prefix test used by the substring models. -/
def isPfx : List Char → List Char → Bool
  | [], _ => true
  | _ :: _, [] => false
  | a :: as, b :: bs => a == b && isPfx as bs

/-- First occurrence split: the part before the first occurrence of sep and the
part after it, or none when sep does not occur. -/
def splitFirst (sep : List Char) : List Char → Option (List Char × List Char)
  | [] => if sep = [] then some ([], []) else none
  | c :: cs =>
    if isPfx sep (c :: cs) then some ([], (c :: cs).drop sep.length)
    else
      match splitFirst sep cs with
      | none => none
      | some (a, b) => some (c :: a, b)

/-- Occurrence test for a substring, Python "in" on strings. -/
def hasSubstr (sep cs : List Char) : Bool := (splitFirst sep cs).isSome

/-- Fueled worker for pySplit. -/
def pySplitAux (sep : List Char) : ℕ → List Char → List (List Char)
  | 0, cs => [cs]
  | fuel + 1, cs =>
    match splitFirst sep cs with
    | none => [cs]
    | some (a, b) => a :: pySplitAux sep fuel b

/-- Model of Python str.split with a nonempty separator. -/
def pySplit (sep cs : List Char) : List (List Char) :=
  pySplitAux sep (cs.length + 1) cs

/-! ## Transcriber data model (src/transcriber.py) -/

/-- One recognized speech segment; the stop field models the end key of the
segment dictionaries in transcriber.py (end is reserved in Lean). -/
structure Segment where
  start : ℚ
  stop : ℚ
  text : String
  deriving DecidableEq, Repr

/-- Model of ends_with_sentence_terminator, transcriber.py lines 45 to 49:
strip the text and test whether the last character is one of the three
sentence terminators. -/
def ends_with_sentence_terminator (text : String) : Bool :=
  let t := pyStrip text.data
  !t.isEmpty &&
    (t.getLast? == some '.' || t.getLast? == some '!' || t.getLast? == some '?')

/-- Model of check_should_end_paragraph, transcriber.py lines 52 to 64. -/
def check_should_end_paragraph (current : Segment) (previous : Option Segment)
    (pause_threshold : ℚ) : Bool :=
  if ends_with_sentence_terminator current.text then true
  else
    match previous with
    | some prev => decide (pause_threshold ≤ current.start - prev.stop)
    | none => false

/-- The paragraph-grouping loop of transcribe_audio, transcriber.py lines
160 to 204, restricted to its grouping effect: the list of paragraphs it
emits (each a list of segments), including the final unconditional flush of
an open paragraph at end of stream. -/
def paragraphLoop (thr : ℚ) : List Segment → List Segment → Option Segment →
    List (List Segment)
  | [], current, _ => if current.isEmpty then [] else [current]
  | s :: rest, current, prev =>
    let cur2 := current ++ [s]
    if check_should_end_paragraph s prev thr && !cur2.isEmpty then
      cur2 :: paragraphLoop thr rest [] (some s)
    else
      paragraphLoop thr rest cur2 (some s)

/-- Paragraphs produced by transcribe_audio for a segment sequence, with the
loop state initialised as at transcriber.py lines 149 to 151. -/
def groupParagraphs (segs : List Segment) (thr : ℚ) : List (List Segment) :=
  paragraphLoop thr segs [] none

/-! ## Lemmas for the grouping loop -/

theorem paragraphLoop_flatten (thr : ℚ) :
    ∀ (segs cur : List Segment) (prev : Option Segment),
      (paragraphLoop thr segs cur prev).flatten = cur ++ segs := by
  intro segs
  induction segs with
  | nil =>
    intro cur prev
    by_cases h : cur.isEmpty
    · simp [paragraphLoop, h, List.isEmpty_iff.mp h]
    · simp [paragraphLoop, h]
  | cons s rest ih =>
    intro cur prev
    by_cases h : check_should_end_paragraph s prev thr
    · simp [paragraphLoop, h, ih]
    · simp [paragraphLoop, h, ih]

theorem paragraphLoop_ne_nil (thr : ℚ) :
    ∀ (segs cur : List Segment) (prev : Option Segment),
      ∀ p ∈ paragraphLoop thr segs cur prev, p ≠ [] := by
  intro segs
  induction segs with
  | nil =>
    intro cur prev p hp
    by_cases h : cur.isEmpty
    · simp [paragraphLoop, h] at hp
    · simp [paragraphLoop, h] at hp
      simpa [hp] using h
  | cons s rest ih =>
    intro cur prev p hp
    by_cases h : check_should_end_paragraph s prev thr
    · simp [paragraphLoop, h] at hp
      rcases hp with hp | hp
      · simp [hp]
      · exact ih [] (some s) p hp
    · simp [paragraphLoop, h] at hp
      exact ih (cur ++ [s]) (some s) p hp

/-- C1: for every finite ordered sequence of input segments, the
concatenation of the emitted paragraphs equals the original sequence (in
order, no drops, no re-ordering), every emitted paragraph is non-empty (in
particular the final open paragraph is flushed at end of stream), and an
empty input yields zero paragraphs. -/
theorem transcribe_paragraph_partition (segs : List Segment) (thr : ℚ) :
    (groupParagraphs segs thr).flatten = segs ∧
    (∀ p ∈ groupParagraphs segs thr, p ≠ []) ∧
    groupParagraphs [] thr = [] := by
  refine ⟨?_, ?_, rfl⟩
  · simpa using paragraphLoop_flatten thr segs [] none
  · exact paragraphLoop_ne_nil thr segs [] none

/-- Witness for C1: the partition property and the non-emptiness of an
emitted paragraph, evaluated at a concrete two-segment input. -/
theorem transcribe_paragraph_partition_witness :
    (groupParagraphs [⟨0, 2, "hello"⟩, ⟨3, 4, "world."⟩] 1).flatten =
      [⟨0, 2, "hello"⟩, ⟨3, 4, "world."⟩] ∧
    ([⟨0, 2, "hello"⟩, ⟨3, 4, "world."⟩] : List Segment) ≠ [] :=
  ⟨(transcribe_paragraph_partition [⟨0, 2, "hello"⟩, ⟨3, 4, "world."⟩] 1).1,
   (transcribe_paragraph_partition [⟨0, 2, "hello"⟩, ⟨3, 4, "world."⟩] 1).2.1
     [⟨0, 2, "hello"⟩, ⟨3, 4, "world."⟩] (by decide)⟩

/-! ## Claim C2: the three-segment end-to-end scenario -/

/-- First scenario segment of C2. -/
def c2seg1 : Segment := ⟨0, 2, "Hello there."⟩

/-- Second scenario segment of C2; 3.5 is the rational seven halves. -/
def c2seg2 : Segment := ⟨2, mkRat 7 2, "Quick follow-up"⟩

/-- Third scenario segment of C2. -/
def c2seg3 : Segment := ⟨6, 8, "New topic."⟩

/-- C2 counterexample: on the scenario input with pause threshold 1.5 the
grouping loop emits two paragraphs, not the claimed three: the third
segment is appended to the open paragraph before the boundary check runs,
so the pause before it closes the paragraph after segment 3, yielding
[seg1] and [seg2, seg3]. -/
theorem c2_scenario_not_three_paragraphs :
    (groupParagraphs [c2seg1, c2seg2, c2seg3] (mkRat 3 2)).length ≠ 3 := by
  decide

/-- C2 (amended): the scenario input with pause threshold 1.5 produces
exactly two paragraphs, [seg1] (closed by its terminal period) and
[seg2, seg3] (closed after seg3, which both follows a 2.5 second pause and
ends with a period); the pause places seg3 at the end of the paragraph it
closes rather than at the start of a new one. -/
theorem c2_scenario_two_paragraphs :
    groupParagraphs [c2seg1, c2seg2, c2seg3] (mkRat 3 2) =
      [[c2seg1], [c2seg2, c2seg3]] := by
  decide

/-! ## Claim C3: the boundary predicate -/

/-- C3: the boundary predicate holds iff the stripped text is non-empty and
ends in one of the three sentence terminators, or a previous segment exists
and the gap start minus previous end is at least the pause threshold (so a
gap exactly equal to the threshold triggers, a smaller gap without terminal
punctuation does not); for the first segment only the punctuation rule can
trigger. -/
theorem check_should_end_paragraph_spec (S : Segment) (P : Option Segment)
    (thr : ℚ) :
    (check_should_end_paragraph S P thr = true ↔
      ((pyStrip S.text.data ≠ [] ∧
        ((pyStrip S.text.data).getLast? = some '.' ∨
         (pyStrip S.text.data).getLast? = some '!' ∨
         (pyStrip S.text.data).getLast? = some '?')) ∨
       (∃ p, P = some p ∧ thr ≤ S.start - p.stop))) ∧
    (check_should_end_paragraph S none thr = true ↔
      (pyStrip S.text.data ≠ [] ∧
        ((pyStrip S.text.data).getLast? = some '.' ∨
         (pyStrip S.text.data).getLast? = some '!' ∨
         (pyStrip S.text.data).getLast? = some '?'))) := by
  have hterm : ends_with_sentence_terminator S.text = true ↔
      (pyStrip S.text.data ≠ [] ∧
        ((pyStrip S.text.data).getLast? = some '.' ∨
         (pyStrip S.text.data).getLast? = some '!' ∨
         (pyStrip S.text.data).getLast? = some '?')) := by
    simp only [ends_with_sentence_terminator, Bool.and_eq_true, Bool.not_eq_true',
      List.isEmpty_eq_false, Bool.or_eq_true, beq_iff_eq]
    tauto
  constructor
  · by_cases hend : ends_with_sentence_terminator S.text
    · simp [check_should_end_paragraph, hend, hterm.mp hend]
    · cases P with
      | none =>
        have hfalse : check_should_end_paragraph S none thr = false := by
          simp [check_should_end_paragraph, hend]
        rw [hfalse]
        simp only [Bool.false_eq_true, false_iff]
        rintro (h | ⟨q, hq, _⟩)
        · exact hend (hterm.mpr h)
        · exact Option.noConfusion hq
      | some p =>
        simp only [check_should_end_paragraph, hend, Bool.false_eq_true,
          if_false, decide_eq_true_eq]
        constructor
        · intro h; exact Or.inr ⟨p, rfl, h⟩
        · rintro (h | ⟨q, hq, hle⟩)
          · exact absurd (hterm.mpr h) hend
          · cases hq; exact hle
  · by_cases hend : ends_with_sentence_terminator S.text
    · simp [check_should_end_paragraph, hend, hterm.mp hend]
    · have hfalse : check_should_end_paragraph S none thr = false := by
        simp [check_should_end_paragraph, hend]
      rw [hfalse]
      simp only [Bool.false_eq_true, false_iff]
      intro h
      exact hend (hterm.mpr h)

/-! ## Diarizer data model (src/diarizer.py) -/

/-- One diarization speaker turn. -/
structure SpeakerTurn where
  start : ℚ
  stop : ℚ
  speaker : String
  deriving DecidableEq, Repr

/-- Overlap between a segment and a turn, diarizer.py lines 51 to 53. -/
def overlapDur (segStart segEnd : ℚ) (t : SpeakerTurn) : ℚ :=
  max 0 (min segEnd t.stop - max segStart t.start)

/-- The scan of assign_speaker_to_segment, diarizer.py lines 44 to 59,
carrying max_overlap and assigned_speaker. -/
def assignAux (segStart segEnd : ℚ) : ℚ → String → List SpeakerTurn → String
  | _, acc, [] => acc
  | m, acc, t :: ts =>
    if m < overlapDur segStart segEnd t then
      assignAux segStart segEnd (overlapDur segStart segEnd t) t.speaker ts
    else
      assignAux segStart segEnd m acc ts

/-- Model of assign_speaker_to_segment with its initial state max_overlap = 0
and assigned_speaker = Unknown; the diarization iteration order is the list
order. -/
def assign_speaker_to_segment (segStart segEnd : ℚ)
    (diarization : List SpeakerTurn) : String :=
  assignAux segStart segEnd 0 "Unknown" diarization

/-- Running maximum of the overlaps of a turn list, started from m. -/
def maxOverlapFrom (segStart segEnd : ℚ) : ℚ → List SpeakerTurn → ℚ
  | m, [] => m
  | m, t :: ts =>
    maxOverlapFrom segStart segEnd (max m (overlapDur segStart segEnd t)) ts

theorem maxOverlapFrom_ge (s e : ℚ) :
    ∀ (ts : List SpeakerTurn) (m : ℚ), m ≤ maxOverlapFrom s e m ts := by
  intro ts
  induction ts with
  | nil => intro m; simp [maxOverlapFrom]
  | cons t ts ih => intro m; exact le_trans (le_max_left _ _) (ih _)

theorem maxOverlapFrom_attained (s e : ℚ) :
    ∀ (ts : List SpeakerTurn) (m : ℚ), maxOverlapFrom s e m ts ≠ m →
      ∃ t ∈ ts, overlapDur s e t = maxOverlapFrom s e m ts := by
  intro ts
  induction ts with
  | nil => intro m h; simp [maxOverlapFrom] at h
  | cons t ts ih =>
    intro m h
    have hunf : maxOverlapFrom s e m (t :: ts) =
        maxOverlapFrom s e (max m (overlapDur s e t)) ts := by
      simp [maxOverlapFrom]
    by_cases hM : maxOverlapFrom s e (max m (overlapDur s e t)) ts =
        max m (overlapDur s e t)
    · have hne : max m (overlapDur s e t) ≠ m := by
        intro he
        apply h
        rw [hunf, hM, he]
      have ho : max m (overlapDur s e t) = overlapDur s e t := by
        rcases max_choice m (overlapDur s e t) with hc | hc
        · exact absurd hc hne
        · exact hc
      refine ⟨t, by simp, ?_⟩
      rw [ho] at hM
      rw [hunf, ho, hM]
    · obtain ⟨u, hu, he⟩ := ih (max m (overlapDur s e t)) hM
      refine ⟨u, by simp [hu], ?_⟩
      rw [hunf]
      exact he

theorem find?_congr_fun {α : Type} (p q : α → Bool) :
    ∀ l : List α, (∀ x, p x = q x) → l.find? p = l.find? q := by
  intro l h
  induction l with
  | nil => rfl
  | cons a l ih => simp [List.find?, h a, ih]

theorem assignAux_spec (s e : ℚ) :
    ∀ (ts : List SpeakerTurn) (m : ℚ) (acc : String),
      assignAux s e m acc ts =
        ((ts.find? (fun t => decide (m < overlapDur s e t ∧
            overlapDur s e t = maxOverlapFrom s e m ts))).map
          SpeakerTurn.speaker).getD acc := by
  intro ts
  induction ts with
  | nil => intro m acc; rfl
  | cons t ts ih =>
    intro m acc
    by_cases hm : m < overlapDur s e t
    · have hmax : max m (overlapDur s e t) = overlapDur s e t :=
        max_eq_right (le_of_lt hm)
      have hMdef : maxOverlapFrom s e m (t :: ts) =
          maxOverlapFrom s e (overlapDur s e t) ts := by
        simp [maxOverlapFrom, hmax]
      by_cases hM : maxOverlapFrom s e (overlapDur s e t) ts = overlapDur s e t
      · have hpt : decide (m < overlapDur s e t ∧
            overlapDur s e t = maxOverlapFrom s e m (t :: ts)) = true := by
          simp [hMdef, hM, hm]
        have hfind : List.find? (fun u => decide (m < overlapDur s e u ∧
            overlapDur s e u = maxOverlapFrom s e m (t :: ts))) (t :: ts) =
            some t := by
          simp [List.find?, hpt]
        rw [hfind]
        have hstep : assignAux s e m acc (t :: ts) =
            assignAux s e (overlapDur s e t) t.speaker ts := by
          simp [assignAux, hm]
        rw [hstep, ih]
        have hnone : ts.find? (fun u => decide (overlapDur s e t < overlapDur s e u ∧
            overlapDur s e u = maxOverlapFrom s e (overlapDur s e t) ts)) = none := by
          rw [List.find?_eq_none]
          intro u _
          simp only [decide_eq_true_eq, not_and]
          intro hlt heq
          rw [hM] at heq
          exact absurd heq (ne_of_gt hlt)
        rw [hnone]
        rfl
      · have hlt : overlapDur s e t < maxOverlapFrom s e (overlapDur s e t) ts :=
          lt_of_le_of_ne (maxOverlapFrom_ge s e ts _) (Ne.symm hM)
        have hpt : decide (m < overlapDur s e t ∧
            overlapDur s e t = maxOverlapFrom s e m (t :: ts)) = false := by
          simp only [hMdef, decide_eq_false_iff_not, not_and]
          intro _
          exact Ne.symm (ne_of_gt hlt)
        have hfind : List.find? (fun u => decide (m < overlapDur s e u ∧
            overlapDur s e u = maxOverlapFrom s e m (t :: ts))) (t :: ts) =
            List.find? (fun u => decide (m < overlapDur s e u ∧
            overlapDur s e u = maxOverlapFrom s e m (t :: ts))) ts := by
          simp [List.find?, hpt]
        rw [hfind]
        have hstep : assignAux s e m acc (t :: ts) =
            assignAux s e (overlapDur s e t) t.speaker ts := by
          simp [assignAux, hm]
        rw [hstep, ih]
        have hcong : ts.find? (fun u => decide (overlapDur s e t < overlapDur s e u ∧
              overlapDur s e u = maxOverlapFrom s e (overlapDur s e t) ts)) =
            ts.find? (fun u => decide (m < overlapDur s e u ∧
              overlapDur s e u = maxOverlapFrom s e m (t :: ts))) := by
          apply find?_congr_fun
          intro x
          rw [hMdef]
          by_cases hx : overlapDur s e x = maxOverlapFrom s e (overlapDur s e t) ts
          · simp [hx, hlt, lt_trans hm hlt]
          · simp [hx]
        rw [hcong]
        have hsome : (ts.find? (fun u => decide (m < overlapDur s e u ∧
            overlapDur s e u = maxOverlapFrom s e m (t :: ts)))).isSome = true := by
          rw [List.find?_isSome]
          obtain ⟨u, hu, he⟩ := maxOverlapFrom_attained s e ts (overlapDur s e t) hM
          refine ⟨u, hu, ?_⟩
          simp only [decide_eq_true_eq, hMdef]
          exact ⟨lt_trans hm (he ▸ hlt), he⟩
        obtain ⟨u, hu⟩ := Option.isSome_iff_exists.mp hsome
        rw [hu]
        rfl
    · have hmax : max m (overlapDur s e t) = m :=
        max_eq_left (not_lt.mp hm)
      have hMdef : maxOverlapFrom s e m (t :: ts) = maxOverlapFrom s e m ts := by
        simp [maxOverlapFrom, hmax]
      have hpt : decide (m < overlapDur s e t ∧
          overlapDur s e t = maxOverlapFrom s e m (t :: ts)) = false := by
        simp only [decide_eq_false_iff_not, not_and]
        intro hc
        exact absurd hc hm
      have hfind : List.find? (fun u => decide (m < overlapDur s e u ∧
          overlapDur s e u = maxOverlapFrom s e m (t :: ts))) (t :: ts) =
          List.find? (fun u => decide (m < overlapDur s e u ∧
          overlapDur s e u = maxOverlapFrom s e m (t :: ts))) ts := by
        simp [List.find?, hpt]
      rw [hfind]
      have hstep : assignAux s e m acc (t :: ts) = assignAux s e m acc ts := by
        simp [assignAux, hm]
      rw [hstep, ih, hMdef]

/-- C4: the assignment returns Unknown when no turn has strictly positive
overlap, and otherwise returns the speaker of the first turn (in iteration
order) whose overlap attains the maximum overlap, which settles both the
strictly-greatest case and the equal-ties case in favour of the
earliest-seen turn. -/
theorem assign_speaker_to_segment_spec (s e : ℚ) (ts : List SpeakerTurn) :
    ((∀ t ∈ ts, ¬ (0 < overlapDur s e t)) →
      assign_speaker_to_segment s e ts = "Unknown") ∧
    (∀ t, ts.find? (fun u => decide (overlapDur s e u = maxOverlapFrom s e 0 ts)) =
        some t → 0 < overlapDur s e t →
      assign_speaker_to_segment s e ts = t.speaker) := by
  constructor
  · intro h
    rw [assign_speaker_to_segment, assignAux_spec]
    have hnone : ts.find? (fun u => decide (0 < overlapDur s e u ∧
        overlapDur s e u = maxOverlapFrom s e 0 ts)) = none := by
      rw [List.find?_eq_none]
      intro u hu
      simp only [decide_eq_true_eq, not_and]
      intro hpos
      exact absurd hpos (h u hu)
    rw [hnone]
    rfl
  · intro t hfind hpos
    have hq : overlapDur s e t = maxOverlapFrom s e 0 ts := by
      have := List.find?_some hfind
      simpa using this
    have hMpos : 0 < maxOverlapFrom s e 0 ts := hq ▸ hpos
    rw [assign_speaker_to_segment, assignAux_spec]
    have hcong : ts.find? (fun u => decide (0 < overlapDur s e u ∧
          overlapDur s e u = maxOverlapFrom s e 0 ts)) =
        ts.find? (fun u => decide (overlapDur s e u = maxOverlapFrom s e 0 ts)) := by
      apply find?_congr_fun
      intro x
      by_cases hx : overlapDur s e x = maxOverlapFrom s e 0 ts
      · simp [hx, hMpos]
      · simp [hx]
    rw [hcong, hfind]
    rfl

/-- Witness for C4: a larger-overlap later turn wins, and a no-overlap turn
list yields Unknown, both evaluated concretely through the theorem. -/
theorem assign_speaker_to_segment_spec_witness :
    assign_speaker_to_segment 0 4 [⟨0, 1, "SPEAKER_00"⟩, ⟨1, 4, "SPEAKER_01"⟩] =
      "SPEAKER_01" ∧
    assign_speaker_to_segment 0 1 [⟨5, 6, "SPEAKER_00"⟩] = "Unknown" :=
  ⟨(assign_speaker_to_segment_spec 0 4
      [⟨0, 1, "SPEAKER_00"⟩, ⟨1, 4, "SPEAKER_01"⟩]).2
      ⟨1, 4, "SPEAKER_01"⟩ (by decide) (by decide),
   (assign_speaker_to_segment_spec 0 1 [⟨5, 6, "SPEAKER_00"⟩]).1 (by decide)⟩

/-! ## String utility lemmas -/

theorem dropWhile_eq_self_of_false {p : Char → Bool} {cs : List Char}
    (h : ∀ c ∈ cs, p c = false) : cs.dropWhile p = cs := by
  cases cs with
  | nil => rfl
  | cons c cs => simp [List.dropWhile_cons, h c (by simp)]

theorem pyStrip_eq_self {cs : List Char}
    (h : ∀ c ∈ cs, isSpaceCh c = false) : pyStrip cs = cs := by
  unfold pyStrip
  rw [dropWhile_eq_self_of_false h,
    dropWhile_eq_self_of_false (fun c hc => h c (List.mem_reverse.mp hc)),
    List.reverse_reverse]

theorem isPfx_append : ∀ (p rest : List Char), isPfx p (p ++ rest) = true := by
  intro p
  induction p with
  | nil => intro rest; rfl
  | cons a as ih => intro rest; simp [isPfx, ih]

theorem isPfx_cons_ne {s0 c : Char} {sep cs : List Char} (h : c ≠ s0) :
    isPfx (s0 :: sep) (c :: cs) = false := by
  simp [isPfx, Ne.symm h]

theorem splitFirst_none {s0 : Char} {sep : List Char} :
    ∀ {cs : List Char}, (∀ c ∈ cs, c ≠ s0) →
      splitFirst (s0 :: sep) cs = none := by
  intro cs
  induction cs with
  | nil => intro _; rfl
  | cons c cs ih =>
    intro h
    rw [splitFirst, if_neg (by simp [isPfx_cons_ne (h c (by simp))]),
      ih (fun d hd => h d (by simp [hd]))]

theorem splitFirst_append {s0 : Char} {sep : List Char} :
    ∀ {A : List Char} (B : List Char), (∀ c ∈ A, c ≠ s0) →
      splitFirst (s0 :: sep) (A ++ (s0 :: sep) ++ B) = some (A, B) := by
  intro A
  induction A with
  | nil =>
    intro B _
    have hpfx : isPfx (s0 :: sep) (s0 :: (sep ++ B)) = true := by
      have h := isPfx_append (s0 :: sep) B
      rw [show (s0 :: sep ++ B : List Char) = s0 :: (sep ++ B) from by simp] at h
      exact h
    rw [show ([] ++ (s0 :: sep) ++ B : List Char) = s0 :: (sep ++ B) from by simp]
    rw [splitFirst, if_pos hpfx]
    have hdrop : (s0 :: (sep ++ B)).drop (s0 :: sep).length = B := by
      have h := List.drop_left (s0 :: sep) B
      rw [show (s0 :: sep ++ B : List Char) = s0 :: (sep ++ B) from by simp] at h
      exact h
    rw [hdrop]
  | cons c A ih =>
    intro B h
    have hc : c ≠ s0 := h c (by simp)
    rw [show (c :: A ++ (s0 :: sep) ++ B : List Char) =
      c :: (A ++ (s0 :: sep) ++ B) from by simp]
    rw [splitFirst, if_neg (by simp [isPfx_cons_ne hc]),
      ih B (fun d hd => h d (by simp [hd]))]

theorem pySplitAux_of_none {sep cs : List Char}
    (h : splitFirst sep cs = none) :
    ∀ fuel, pySplitAux sep fuel cs = [cs] := by
  intro fuel
  cases fuel with
  | zero => rfl
  | succ fuel => rw [pySplitAux, h]

theorem pySplit_pair {s0 : Char} {sep A B : List Char}
    (hA : ∀ c ∈ A, c ≠ s0) (hB : ∀ c ∈ B, c ≠ s0) :
    pySplit (s0 :: sep) (A ++ (s0 :: sep) ++ B) = [A, B] := by
  have h1 : pySplit (s0 :: sep) (A ++ (s0 :: sep) ++ B) =
      A :: pySplitAux (s0 :: sep) ((A ++ (s0 :: sep) ++ B).length) B := by
    unfold pySplit
    rw [pySplitAux, splitFirst_append B hA]
  rw [h1, pySplitAux_of_none (splitFirst_none hB)]

theorem isDigitCh_bounds {c : Char} (h : isDigitCh c = true) :
    48 ≤ c.toNat ∧ c.toNat ≤ 57 := by
  simpa [isDigitCh] using h

theorem isDigitCh_ne {c d : Char} (h : isDigitCh c = true)
    (hd : d.toNat < 48 ∨ 57 < d.toNat) : c ≠ d := by
  intro he
  obtain ⟨h1, h2⟩ := isDigitCh_bounds h
  subst he
  rcases hd with hd | hd <;> omega

theorem isSpaceCh_of_digit {c : Char} (h : isDigitCh c = true) :
    isSpaceCh c = false := by
  obtain ⟨h1, h2⟩ := isDigitCh_bounds h
  simp only [isSpaceCh, Bool.or_eq_false_iff, beq_eq_false_iff_ne, ne_eq]
  omega

/-! ## Speaker label formatting (diarizer.py lines 62 to 67) -/

/-- Decimal rendering of an integer (Python rendering via an f-string). -/
def intStr (i : ℤ) : String :=
  if i < 0 then String.mk ('-' :: natChars i.natAbs) else String.mk (natChars i.natAbs)

/-- Value of a digit-only string, none when empty or holding a non-digit. -/
def digitsVal (cs : List Char) : Option ℕ :=
  if cs ≠ [] ∧ cs.all isDigitCh then some (parseNatV cs) else none

/-- Model of Python int(str): strip whitespace, optional sign, decimal
digits; none models a raised ValueError. -/
def pyIntParse (cs0 : List Char) : Option ℤ :=
  let cs := pyStrip cs0
  if cs.head? = some '-' then (digitsVal (cs.drop 1)).map (fun n => -(n : ℤ))
  else if cs.head? = some '+' then (digitsVal (cs.drop 1)).map (fun n => (n : ℤ))
  else (digitsVal cs).map (fun n => (n : ℤ))

/-- Model of format_speaker_name, diarizer.py lines 62 to 67: on a non-empty
identifier starting with SPEAKER underscore, take the field after the first
underscore of the underscore-split, parse it as an int and render Speaker
followed by the value plus one; other identifiers pass through. The Option
result models the possibility of int() raising ValueError (none). -/
def format_speaker_name (speaker_id : String) : Option String :=
  if speaker_id ≠ "" ∧ isPfx "SPEAKER_".data speaker_id.data = true then
    match (pySplit ['_'] speaker_id.data)[1]? with
    | none => none
    | some part =>
      match pyIntParse part with
      | none => none
      | some n => some ("Speaker " ++ intStr (n + 1))
  else some speaker_id

/-- C5 counterexample: an identifier matching the SPEAKER underscore guard
whose numeric field is not an integer makes int() raise (modelled none)
rather than passing through unchanged, and SPEAKER_1_2 is rewritten rather
than passed through, refuting the claim that every non-matching identifier
is returned unchanged without raising. -/
theorem format_speaker_name_not_total :
    format_speaker_name "SPEAKER_A" = none ∧
    format_speaker_name "SPEAKER_1_2" = some "Speaker 2" := by
  constructor <;> decide

/-- C5 (amended): identifiers of shape SPEAKER underscore followed by a
non-empty digit string map to Speaker followed by the parsed value plus
one; identifiers failing the guard (empty, or not starting with SPEAKER
underscore, including the Unknown sentinel) pass through unchanged without
raising; but a guarded identifier with a non-integer field after the first
underscore raises ValueError, and extra underscore fields are dropped. -/
theorem format_speaker_name_amended :
    (∀ s : String, ¬ (s ≠ "" ∧ isPfx "SPEAKER_".data s.data = true) →
      format_speaker_name s = some s) ∧
    (∀ ds : List Char, ds ≠ [] → ds.all isDigitCh = true →
      format_speaker_name (String.mk ("SPEAKER_".data ++ ds)) =
        some ("Speaker " ++ intStr ((parseNatV ds : ℤ) + 1))) ∧
    format_speaker_name "Unknown" = some "Unknown" := by
  refine ⟨?_, ?_, by decide⟩
  · intro s hs
    rw [format_speaker_name, if_neg hs]
  · intro ds hne hdig
    have hdigall : ∀ c ∈ ds, isDigitCh c = true := by
      intro c hc
      exact List.all_eq_true.mp hdig c hc
    have hsdata : (String.mk ("SPEAKER_".data ++ ds)).data =
        "SPEAKER_".data ++ ds := rfl
    have hguard : String.mk ("SPEAKER_".data ++ ds) ≠ "" ∧
        isPfx "SPEAKER_".data (String.mk ("SPEAKER_".data ++ ds)).data = true := by
      constructor
      · intro h
        have := congrArg String.data h
        simp at this
      · rw [hsdata]
        exact isPfx_append _ _
    rw [format_speaker_name, if_pos hguard]
    have hsplitdata : "SPEAKER_".data ++ ds = "SPEAKER".data ++ ['_'] ++ ds := by
      have h8 : "SPEAKER_".data = "SPEAKER".data ++ ['_'] := by decide
      rw [h8, List.append_assoc]
    have hsplit : pySplit ['_'] ((String.mk ("SPEAKER_".data ++ ds)).data) =
        ["SPEAKER".data, ds] := by
      rw [hsdata, hsplitdata]
      exact pySplit_pair (by decide) (fun c hc => isDigitCh_ne (hdigall c hc) (by decide))
    rw [hsplit]
    have hidx : (["SPEAKER".data, ds])[1]? = some ds := rfl
    rw [hidx]
    have hstrip : pyStrip ds = ds :=
      pyStrip_eq_self (fun c hc => isSpaceCh_of_digit (hdigall c hc))
    obtain ⟨d, rest, rfl⟩ : ∃ d rest, ds = d :: rest := by
      cases ds with
      | nil => exact absurd rfl hne
      | cons d rest => exact ⟨d, rest, rfl⟩
    have hd : isDigitCh d = true := hdigall d (by simp)
    have hparse : pyIntParse (d :: rest) = some ((parseNatV (d :: rest) : ℤ)) := by
      rw [pyIntParse]
      simp only [hstrip]
      rw [if_neg (by
          simp only [List.head?_cons, Option.some.injEq]
          exact isDigitCh_ne hd (by decide)),
        if_neg (by
          simp only [List.head?_cons, Option.some.injEq]
          exact isDigitCh_ne hd (by decide))]
      rw [digitsVal, if_pos ⟨by simp, hdig⟩]
      rfl
    simp only [hparse]

/-- Witness for C5 (amended): evaluated at SPEAKER_07 (maps to Speaker 8)
and at an identifier failing the guard (passes through). -/
theorem format_speaker_name_amended_witness :
    format_speaker_name "SPEAKER_07" = some "Speaker 8" ∧
    format_speaker_name "bob" = some "bob" := by
  constructor
  · have h := format_speaker_name_amended.2.1 ['0', '7'] (by decide) (by decide)
    have he : String.mk ("SPEAKER_".data ++ ['0', '7']) = "SPEAKER_07" := by decide
    have hv : ("Speaker " ++ intStr ((parseNatV ['0', '7'] : ℤ) + 1)) =
        "Speaker 8" := by decide
    rw [he, hv] at h
    exact h
  · exact format_speaker_name_amended.1 "bob" (by decide)

/-! ## File discovery model (src/utils.py) -/

/-- The fixed audio extension list of get_untranscribed_files, utils.py
line 17. -/
def audio_extensions : List String := [".mp3", ".wav", ".m4a", ".flac"]

/-- Stem of a file name under os.path.splitext: cut at the last dot, except
that a dot inside the leading run of dots starts no extension. -/
def splitextStem (name : String) : String :=
  let cs := name.data
  let lead := (cs.takeWhile (fun c => c == '.')).length
  match ((List.range cs.length).filter (fun i => cs.getD i ' ' == '.')).getLast? with
  | none => name
  | some i => if i < lead then name else String.mk (cs.take i)

/-- Derived transcript file name for an audio file name, utils.py line 30
(the output-directory path join is abstracted away: the existence oracle
receives the file name inside the output directory). -/
def transcriptName (audioName : String) : String :=
  splitextStem audioName ++ "_transcript.txt"

/-- Boolean suffix test on strings, by character list. -/
def strEndsWith (s post : String) : Bool := isPfx post.data.reverse s.data.reverse

/-- Model of get_untranscribed_files, utils.py lines 5 to 36: the glob per
extension is modelled as a suffix filter over the audio-directory listing
(in directory order), and transcript existence as a boolean oracle over
file names in the output directory. The early return on an empty match
list produces the same value as the general path and is dropped. -/
def get_untranscribed_files (audioFiles : List String)
    (transcriptExists : String → Bool) : List String :=
  let matched := audio_extensions.flatMap
    (fun ext => audioFiles.filter (fun f => strEndsWith f ext))
  matched.filter (fun f => !transcriptExists (transcriptName f))

/-- C6: a file is returned exactly when it is listed in the audio directory,
carries one of the four audio extensions, and its derived transcript name
does not exist in the output directory; and on the spec scenario (a.mp3
with a transcript, b.wav without) exactly b.wav is returned. No mutation is
possible: the model is a pure function of the two directory states. -/
theorem get_untranscribed_files_spec :
    (∀ (audioFiles : List String) (transcriptExists : String → Bool)
      (f : String),
      f ∈ get_untranscribed_files audioFiles transcriptExists ↔
        (f ∈ audioFiles ∧ (∃ ext ∈ audio_extensions, strEndsWith f ext = true) ∧
          transcriptExists (transcriptName f) = false)) ∧
    get_untranscribed_files ["a.mp3", "b.wav"]
      (fun name => name == "a_transcript.txt") = ["b.wav"] := by
  constructor
  · intro audioFiles transcriptExists f
    simp only [get_untranscribed_files, List.mem_filter, List.mem_flatMap,
      Bool.not_eq_true']
    tauto
  · decide

/-! ## Transcript writer model (transcriber.py lines 67 to 95, 183 to 204) -/

/-- The in-progress sentinel line written by write_paragraph. -/
def sentinelLine : String := "Transcription in progress..."

/-- Model of remove_in_progress_marker, transcriber.py lines 67 to 77, on
the file as its list of lines: the source truncates the content when it
ends with the sentinel line plus newline, which on a line list is dropping
a final sentinel line. -/
def remove_in_progress_marker (ls : List String) : List String :=
  if ls.getLast? = some sentinelLine then ls.dropLast else ls

/-- Start time of a paragraph, paragraph_segments[0].start in the source. -/
def paragraphStart (p : List Segment) : ℚ := ((p.head?).map Segment.start).getD 0

/-- End time of a paragraph, paragraph_segments[-1].end in the source. -/
def paragraphEnd (p : List Segment) : ℚ := ((p.getLast?).map Segment.stop).getD 0

/-- Python " ".join on a list of strings. -/
def spaceJoin : List String → String
  | [] => ""
  | [t] => t
  | t :: u :: ts => t ++ " " ++ spaceJoin (u :: ts)

/-- Exact half-to-even rounding of a rational to an integer, the rounding
rule of Python float formatting. -/
def roundHalfEvenQ (q : ℚ) : ℤ :=
  let f := ⌊q⌋
  let r := q - (f : ℚ)
  if r < mkRat 1 2 then f
  else if mkRat 1 2 < r then f + 1
  else if f % 2 = 0 then f else f + 1

/-- Character rendering of a time under the Python .2f format, modelled as
exact rounding to hundredths followed by decimal printing with a two-digit
fraction. -/
def fmt2C (q : ℚ) : List Char :=
  let n : ℤ := roundHalfEvenQ (q * 100)
  let a : ℕ := n.natAbs
  let body := natChars (a / 100) ++
    '.' :: [digitChar (a % 100 / 10), digitChar (a % 100 % 10)]
  if n < 0 then '-' :: body else body

/-- The paragraph line written at transcriber.py line 93 and line 199, as
its character list. -/
def paraLineChars (p : List Segment) : List Char :=
  '[' :: fmt2C (paragraphStart p) ++ ('s' :: ' ' :: '-' :: '>' :: ' ' :: []) ++
    fmt2C (paragraphEnd p) ++ ('s' :: ']' :: ' ' :: []) ++
    (spaceJoin (p.map Segment.text)).data

/-- The paragraph line written at transcriber.py line 93 and line 199. -/
def paraLine (p : List Segment) : String := String.mk (paraLineChars p)

/-- Model of write_paragraph, transcriber.py lines 79 to 95, on the file as
a list of lines: the bytes "[start s -> end s] text\n\n" plus the sentinel
line and newline are three appended lines. -/
def write_paragraph (p : List Segment) (ls : List String) : List String :=
  if p.isEmpty then ls
  else remove_in_progress_marker ls ++ [paraLine p, "", sentinelLine]

/-- The transcribe_audio loop of transcriber.py lines 160 to 204 with its
file effect: paragraph grouping as in paragraphLoop plus the per-paragraph
writes and the final flush, which appends the last open paragraph without a
sentinel, or only strips the sentinel when no paragraph is open. -/
def transcribeFileLoop (thr : ℚ) : List Segment → List Segment →
    Option Segment → List String → List String
  | [], current, _, ls =>
    if current.isEmpty then remove_in_progress_marker ls
    else remove_in_progress_marker ls ++ [paraLine current, ""]
  | s :: rest, current, prev, ls =>
    let cur2 := current ++ [s]
    if check_should_end_paragraph s prev thr && !cur2.isEmpty then
      transcribeFileLoop thr rest [] (some s) (write_paragraph cur2 ls)
    else
      transcribeFileLoop thr rest cur2 (some s) ls

/-- Finalized transcript file of transcribe_audio: header lines written by
create_output_file, then the loop. -/
def transcribe_file_lines (hdr : List String) (segs : List Segment)
    (thr : ℚ) : List String :=
  transcribeFileLoop thr segs [] none hdr

theorem remove_append_sentinel (xs : List String) (a b : String) :
    remove_in_progress_marker (xs ++ [a, b, sentinelLine]) = xs ++ [a, b] := by
  have h : xs ++ [a, b, sentinelLine] = (xs ++ [a, b]) ++ [sentinelLine] := by
    simp
  rw [remove_in_progress_marker, h, List.getLast?_concat, if_pos rfl,
    List.dropLast_concat]

theorem paraLine_ne_sentinel (p : List Segment) : paraLine p ≠ sentinelLine := by
  intro h
  have hd := congrArg String.data h
  have h1 : (paraLineChars p).head? = some '[' := rfl
  rw [show (paraLine p).data = paraLineChars p from rfl] at hd
  rw [hd] at h1
  exact absurd h1 (by decide)

theorem transcribeFileLoop_closed (thr : ℚ) :
    ∀ (segs cur : List Segment) (prev : Option Segment) (ls : List String),
      (remove_in_progress_marker ls).getLast? ≠ some sentinelLine →
      transcribeFileLoop thr segs cur prev ls =
        remove_in_progress_marker ls ++
          (paragraphLoop thr segs cur prev).flatMap (fun p => [paraLine p, ""]) := by
  intro segs
  induction segs with
  | nil =>
    intro cur prev ls _
    by_cases h : cur.isEmpty
    · simp [transcribeFileLoop, paragraphLoop, h]
    · simp [transcribeFileLoop, paragraphLoop, h]
  | cons s rest ih =>
    intro cur prev ls hls
    by_cases h : check_should_end_paragraph s prev thr
    · have hwrite : write_paragraph (cur ++ [s]) ls =
          remove_in_progress_marker ls ++ [paraLine (cur ++ [s]), "", sentinelLine] := by
        rw [write_paragraph, if_neg (by simp)]
      have hrem : remove_in_progress_marker (write_paragraph (cur ++ [s]) ls) =
          remove_in_progress_marker ls ++ [paraLine (cur ++ [s]), ""] := by
        rw [hwrite]
        exact remove_append_sentinel _ _ _
      have hlast : (remove_in_progress_marker (write_paragraph (cur ++ [s]) ls)).getLast? ≠
          some sentinelLine := by
        rw [hrem]
        have : (remove_in_progress_marker ls ++ [paraLine (cur ++ [s]), ""]).getLast? =
            some "" := by
          rw [show (remove_in_progress_marker ls ++ [paraLine (cur ++ [s]), ""] : List String) =
            (remove_in_progress_marker ls ++ [paraLine (cur ++ [s])]) ++ [""] from by simp]
          exact List.getLast?_concat _
        rw [this]
        intro hc
        exact absurd (Option.some.inj hc) (by decide)
      have hstep : transcribeFileLoop thr (s :: rest) cur prev ls =
          transcribeFileLoop thr rest [] (some s) (write_paragraph (cur ++ [s]) ls) := by
        simp [transcribeFileLoop, h]
      have hploop : paragraphLoop thr (s :: rest) cur prev =
          (cur ++ [s]) :: paragraphLoop thr rest [] (some s) := by
        simp [paragraphLoop, h]
      rw [hstep, ih [] (some s) _ hlast, hrem, hploop]
      simp
    · have hstep : transcribeFileLoop thr (s :: rest) cur prev ls =
          transcribeFileLoop thr rest (cur ++ [s]) (some s) ls := by
        simp [transcribeFileLoop, h]
      have hploop : paragraphLoop thr (s :: rest) cur prev =
          paragraphLoop thr rest (cur ++ [s]) (some s) := by
        simp [paragraphLoop, h]
      rw [hstep, ih (cur ++ [s]) (some s) ls hls, hploop]

theorem remove_of_not_mem {ls : List String} (h : sentinelLine ∉ ls) :
    remove_in_progress_marker ls = ls := by
  rw [remove_in_progress_marker, if_neg]
  intro hc
  exact h (List.mem_of_mem_getLast? hc)

/-- C7: every write_paragraph call on a non-empty paragraph (the only calls
the loop makes) leaves the file ending with the sentinel line, and the
finalized file of transcribe_audio contains no occurrence of the sentinel
line for every input, the empty input included, provided the fixed header
does not itself contain it. -/
theorem write_paragraph_sentinel_invariant :
    (∀ (p : List Segment) (ls : List String), p ≠ [] →
      (write_paragraph p ls).getLast? = some sentinelLine) ∧
    (∀ (hdr : List String) (segs : List Segment) (thr : ℚ),
      sentinelLine ∉ hdr →
      sentinelLine ∉ transcribe_file_lines hdr segs thr) := by
  constructor
  · intro p ls hp
    rw [write_paragraph, if_neg (by simpa using hp)]
    rw [show (remove_in_progress_marker ls ++ [paraLine p, "", sentinelLine] :
      List String) =
      (remove_in_progress_marker ls ++ [paraLine p, ""]) ++ [sentinelLine] from by simp]
    exact List.getLast?_concat _
  · intro hdr segs thr hh
    have hrem : remove_in_progress_marker hdr = hdr := remove_of_not_mem hh
    have hlast : (remove_in_progress_marker hdr).getLast? ≠ some sentinelLine := by
      rw [hrem]
      intro hc
      exact hh (List.mem_of_mem_getLast? hc)
    rw [transcribe_file_lines, transcribeFileLoop_closed thr segs [] none hdr hlast,
      hrem]
    intro hmem
    rcases List.mem_append.mp hmem with hmem | hmem
    · exact hh hmem
    · rcases List.mem_flatMap.mp hmem with ⟨p, _, hp⟩
      simp only [List.mem_cons, List.not_mem_nil, or_false] at hp
      rcases hp with hp | hp
      · exact paraLine_ne_sentinel p hp.symm
      · exact absurd hp.symm (by decide)

/-- Witness for C7: the write-side invariant and the finalized-file
invariant evaluated at a concrete header, paragraph and input. -/
theorem write_paragraph_sentinel_invariant_witness :
    (write_paragraph [⟨0, 2, "Hi."⟩] ["hdr", ""]).getLast? = some sentinelLine ∧
    sentinelLine ∉ transcribe_file_lines ["hdr", ""] [⟨0, 2, "Hi."⟩] 1 :=
  ⟨write_paragraph_sentinel_invariant.1 [⟨0, 2, "Hi."⟩] ["hdr", ""] (by decide),
   write_paragraph_sentinel_invariant.2 ["hdr", ""] [⟨0, 2, "Hi."⟩] 1 (by decide)⟩

/-- C8 counterexample: on a concrete non-empty input the finalized file of
transcribe_audio consists of the header and the paragraph blocks only; in
particular it contains no Full Plain Text Transcript section heading, so
the file does not end with a trailing full-plain-text section. -/
theorem transcribe_audio_no_full_text_section :
    transcribe_file_lines ["hdr", ""] [⟨0, 2, "Hi."⟩] (mkRat 3 2) =
      ["hdr", "", "[0.00s -> 2.00s] Hi.", ""] ∧
    "Full Plain Text Transcript:" ∉
      transcribe_file_lines ["hdr", ""] [⟨0, 2, "Hi."⟩] (mkRat 3 2) := by
  constructor
  · decide
  · decide

/-- C8 (amended): for every input the finalized file of transcribe_audio is
the header followed, for each emitted paragraph in order, by its rendered
line "[start s -> end s] text" (two-decimal times from the first segment
start and last segment end, texts space-joined, as defined by paraLine) and
a blank line; no full-plain-text section is appended (that section is
written only by the speaker-augmentation writer of diarizer.py). -/
theorem transcribe_audio_render (hdr : List String) (segs : List Segment)
    (thr : ℚ) (hh : hdr.getLast? ≠ some sentinelLine) :
    transcribe_file_lines hdr segs thr =
      hdr ++ (groupParagraphs segs thr).flatMap (fun p => [paraLine p, ""]) := by
  have hrem : remove_in_progress_marker hdr = hdr := by
    rw [remove_in_progress_marker, if_neg hh]
  have hlast : (remove_in_progress_marker hdr).getLast? ≠ some sentinelLine := by
    rw [hrem]; exact hh
  rw [transcribe_file_lines, transcribeFileLoop_closed thr segs [] none hdr hlast,
    hrem, groupParagraphs]

/-- Witness for C8 (amended): the closed form evaluated at a concrete
header and input. -/
theorem transcribe_audio_render_witness :
    transcribe_file_lines ["hdr", ""] [⟨0, 2, "Hi."⟩, ⟨3, 4, "more"⟩] 1 =
      ["hdr", ""] ++ (groupParagraphs [⟨0, 2, "Hi."⟩, ⟨3, 4, "more"⟩] 1).flatMap
        (fun p => [paraLine p, ""]) :=
  transcribe_audio_render ["hdr", ""] [⟨0, 2, "Hi."⟩, ⟨3, 4, "more"⟩] 1 (by decide)

/-! ## File-level error handling (transcriber.py 115 to 145, main.py 54 to 91) -/

/-- Result of a Python call: a returned value or a raised exception. -/
inductive PyResult (α : Type) where
  | ok : α → PyResult α
  | exn : String → PyResult α
  deriving DecidableEq, Repr

/-- Control-flow model of transcribe_audio at file level: the missing-file
guard at line 115 returns None, the try block at lines 123 to 128 turns a
model-construction failure into None, and every later step, including the
transcription call at line 141, runs outside any exception handler, so a
failure there escapes as a raised exception; on success the output path is
returned. The collaborator outcomes are parameters of the model. -/
def transcribe_audio_outcome (audioExists : Bool) (modelLoad : PyResult Unit)
    (transcribeCall : PyResult (List Segment)) (outputPath : String) :
    PyResult (Option String) :=
  if !audioExists then .ok none
  else
    match modelLoad with
    | .exn _ => .ok none
    | .ok _ =>
      match transcribeCall with
      | .exn e => .exn e
      | .ok _ => .ok (some outputPath)

/-- One step of the batch aggregation of main.py lines 57 to 77. -/
def batchStep (acc : ℕ × List String) (r : String × Option String) :
    ℕ × List String :=
  match r.2 with
  | some _ => (acc.1 + 1, acc.2)
  | none => (acc.1, acc.2 ++ [r.1])

/-- The batch driver aggregation of main.py: success count and failed-file
list over the per-file outcomes, in order. -/
def batch_summary (outcomes : List (String × Option String)) : ℕ × List String :=
  outcomes.foldl batchStep (0, [])

theorem batch_summary_aux :
    ∀ (outcomes : List (String × Option String)) (n : ℕ) (fs : List String),
      outcomes.foldl batchStep (n, fs) =
        (n + (outcomes.filter (fun r => r.2.isSome)).length,
         fs ++ (outcomes.filter (fun r => r.2.isNone)).map Prod.fst) := by
  intro outcomes
  induction outcomes with
  | nil => intro n fs; simp
  | cons r rest ih =>
    intro n fs
    cases hr : r.2 with
    | some v =>
      rw [List.foldl_cons, show batchStep (n, fs) r = (n + 1, fs) from by
        simp [batchStep, hr], ih]
      simp [List.filter_cons, hr]
      omega
    | none =>
      rw [List.foldl_cons, show batchStep (n, fs) r = (n, fs ++ [r.1]) from by
        simp [batchStep, hr], ih]
      simp [List.filter_cons, hr]

/-- C9 counterexample: with the audio file present and the model constructed,
a failure raised while invoking the transcription collaborator is outside
the try block, so transcribe_audio propagates the exception instead of
returning the None sentinel, refuting the claim that it never raises past
the file-level boundary. -/
theorem transcribe_audio_inference_failure_raises :
    transcribe_audio_outcome true (.ok ()) (.exn "inference failure") "out.txt" =
      .exn "inference failure" ∧
    transcribe_audio_outcome true (.ok ()) (.exn "inference failure") "out.txt" ≠
      .ok none := by
  constructor
  · rfl
  · decide

/-- C9 (amended): a missing audio file and a failure constructing the
transcription model both return the None sentinel without raising, and the
batch driver aggregates the per-file outcomes into a success count and an
in-order failure list; but a failure raised while invoking the
transcription collaborator itself propagates out of transcribe_audio. -/
theorem transcribe_audio_failure_handling :
    (∀ (load : PyResult Unit) (call : PyResult (List Segment)) (out : String),
      transcribe_audio_outcome false load call out = .ok none) ∧
    (∀ (e : String) (call : PyResult (List Segment)) (out : String),
      transcribe_audio_outcome true (.exn e) call out = .ok none) ∧
    (∀ outcomes : List (String × Option String),
      (batch_summary outcomes).1 =
        (outcomes.filter (fun r => r.2.isSome)).length ∧
      (batch_summary outcomes).2 =
        (outcomes.filter (fun r => r.2.isNone)).map Prod.fst) ∧
    (∀ (e : String) (out : String),
      transcribe_audio_outcome true (.ok ()) (.exn e) out = .exn e) := by
  refine ⟨fun load call out => rfl, fun e call out => rfl, ?_, fun e out => rfl⟩
  intro outcomes
  have h := batch_summary_aux outcomes 0 []
  rw [batch_summary, h]
  simp

/-! ## Transcript parsing model (diarizer.py lines 17 to 41) -/

/-- Exact two-decimal rounding of a rational: the value carried by the
two-decimal rendering of fmt2C. -/
def round2 (q : ℚ) : ℚ := (roundHalfEvenQ (q * 100) : ℚ) / 100

/-- Magnitude part of the Python float(str) model: digits with an optional
fractional part, split at the dots. -/
def pyFloatMag (cs : List Char) : Option ℚ :=
  match pySplit ['.'] cs with
  | [ip] => if ip ≠ [] ∧ ip.all isDigitCh then some ((parseNatV ip : ℚ)) else none
  | [ip, fp] =>
    if (ip ≠ [] ∨ fp ≠ []) ∧ ip.all isDigitCh ∧ fp.all isDigitCh then
      some ((parseNatV ip : ℚ) + (parseNatV fp : ℚ) / ((10 : ℚ) ^ fp.length))
    else none
  | _ => none

/-- Model of Python float(str) on plain decimal literals (the only shape a
transcript timestamp takes): strip whitespace, optional sign, digits with
an optional fractional part; none models a raised ValueError. -/
def pyFloat (cs0 : List Char) : Option ℚ :=
  let cs := pyStrip cs0
  if cs.head? = some '-' then (pyFloatMag (cs.drop 1)).map Neg.neg
  else if cs.head? = some '+' then pyFloatMag (cs.drop 1)
  else pyFloatMag cs

/-- Model of one line of parse_transcript, diarizer.py lines 22 to 39: the
three guards (starts with a bracket, contains "s -> ", contains "s]"), then
the try block taking the part between the first bracket pair as the
timestamp, splitting it on " -> ", parsing both floats after deleting the s
characters, and stripping the text after the first closing bracket; none
models a guard failure or an exception caught by the bare except. -/
def parseLineChars (cs : List Char) : Option Segment :=
  if cs.head? = some '[' ∧ hasSubstr "s -> ".data cs = true ∧
      hasSubstr "s]".data cs = true then
    match pySplit (" -> ".data) ((cs.drop 1).takeWhile (fun c => !(c == ']'))) with
    | [a, b] =>
      match pyFloat (a.filter (fun c => !(c == 's'))),
            pyFloat (b.filter (fun c => !(c == 's'))) with
      | some st, some en =>
        some ⟨st, en,
          String.mk (pyStrip (((cs.drop 1).dropWhile (fun c => !(c == ']'))).drop 1))⟩
      | _, _ => none
    | _ => none
  else none

/-- Model of parse_transcript, diarizer.py lines 17 to 41, over the list of
file lines: unparseable lines are skipped and parsing never raises, which
the model states by being a total filterMap. -/
def parse_transcript (lines : List String) : List Segment :=
  lines.filterMap (fun l => parseLineChars l.data)

/-! ## Digit and formatting lemmas for the round trip -/

theorem digitChar_isDigit {d : ℕ} (h : d < 10) : isDigitCh (digitChar d) = true := by
  interval_cases d <;> decide

theorem charVal_digitChar {d : ℕ} (h : d < 10) : charVal (digitChar d) = d := by
  interval_cases d <;> decide

theorem natDigitsRev_lt : ∀ (fuel m d : ℕ), d ∈ natDigitsRev fuel m → d < 10 := by
  intro fuel
  induction fuel with
  | zero => intro m d h; simp [natDigitsRev] at h
  | succ fuel ih =>
    intro m d h
    cases m with
    | zero => simp [natDigitsRev] at h
    | succ k =>
      rw [natDigitsRev] at h
      rcases List.mem_cons.mp h with h | h
      · rw [h]; exact Nat.mod_lt _ (by omega)
      · exact ih _ _ h

theorem natChars_digits : ∀ (m : ℕ), ∀ c ∈ natChars m, isDigitCh c = true := by
  intro m c hc
  rw [natChars] at hc
  by_cases hm : m = 0
  · rw [if_pos hm] at hc
    simp only [List.mem_singleton] at hc
    rw [hc]; decide
  · rw [if_neg hm] at hc
    rcases List.mem_map.mp hc with ⟨d, hd, rfl⟩
    exact digitChar_isDigit (natDigitsRev_lt _ _ _ (List.mem_reverse.mp hd))

theorem natChars_ne_nil (m : ℕ) : natChars m ≠ [] := by
  rw [natChars]
  by_cases hm : m = 0
  · rw [if_pos hm]; simp
  · rw [if_neg hm]
    obtain ⟨k, rfl⟩ := Nat.exists_eq_succ_of_ne_zero hm
    rw [natDigitsRev]
    simp

theorem parseNatV_append_digit (xs : List Char) (c : Char) :
    parseNatV (xs ++ [c]) = 10 * parseNatV xs + charVal c := by
  rw [parseNatV, List.foldl_append]
  rfl

theorem parseNatV_digits : ∀ (fuel m : ℕ), m ≤ fuel →
    parseNatV ((natDigitsRev fuel m).reverse.map digitChar) = m := by
  intro fuel
  induction fuel with
  | zero =>
    intro m hm
    interval_cases m
    rfl
  | succ fuel ih =>
    intro m hm
    cases m with
    | zero => rfl
    | succ k =>
      rw [natDigitsRev]
      rw [List.reverse_cons, List.map_append]
      rw [show (List.map digitChar [(k + 1) % 10]) = [digitChar ((k + 1) % 10)] from rfl]
      rw [parseNatV_append_digit]
      have hdiv : (k + 1) / 10 ≤ fuel := by
        have := Nat.div_lt_self (Nat.succ_pos k) (by omega : 1 < 10)
        omega
      rw [ih _ hdiv, charVal_digitChar (Nat.mod_lt _ (by omega))]
      omega

theorem parseNatV_natChars (m : ℕ) : parseNatV (natChars m) = m := by
  rw [natChars]
  by_cases hm : m = 0
  · rw [if_pos hm, hm]; rfl
  · rw [if_neg hm]
    exact parseNatV_digits m m le_rfl

theorem roundHalfEvenQ_nonneg {q : ℚ} (h : 0 ≤ q) : 0 ≤ roundHalfEvenQ q := by
  rw [roundHalfEvenQ]
  have hf : (0 : ℤ) ≤ ⌊q⌋ := Int.floor_nonneg.mpr h
  split
  · exact hf
  · split
    · omega
    · split <;> omega

theorem fmt2C_classify {q : ℚ} (hq : 0 ≤ q) :
    ∀ c ∈ fmt2C q, isDigitCh c = true ∨ c = '.' := by
  intro c hc
  rw [fmt2C] at hc
  have hn : ¬ (roundHalfEvenQ (q * 100) < 0) :=
    not_lt.mpr (roundHalfEvenQ_nonneg (by positivity))
  rw [if_neg hn] at hc
  rcases List.mem_append.mp hc with hc | hc
  · exact Or.inl (natChars_digits _ c hc)
  · rcases List.mem_cons.mp hc with hc | hc
    · exact Or.inr hc
    · rcases List.mem_cons.mp hc with hc | hc
      · exact Or.inl (hc ▸ digitChar_isDigit (by omega : _ % 100 / 10 < 10))
      · rcases List.mem_cons.mp hc with hc | hc
        · exact Or.inl (hc ▸ digitChar_isDigit (Nat.mod_lt _ (by omega)))
        · simp at hc

theorem fmt2C_ne_of {q : ℚ} (hq : 0 ≤ q) {d : Char}
    (hd : d.toNat < 48 ∨ 57 < d.toNat) (hdot : d ≠ '.') :
    ∀ c ∈ fmt2C q, c ≠ d := by
  intro c hc
  rcases fmt2C_classify hq c hc with h | h
  · exact isDigitCh_ne h hd
  · rw [h]
    intro he
    exact hdot he.symm

theorem fmt2C_not_space {q : ℚ} (hq : 0 ≤ q) :
    ∀ c ∈ fmt2C q, isSpaceCh c = false := by
  intro c hc
  rcases fmt2C_classify hq c hc with h | h
  · exact isSpaceCh_of_digit h
  · rw [h]; decide

theorem bne_true_of_ne {c d : Char} (h : c ≠ d) : (!(c == d)) = true := by
  simp [h]

theorem takeWhile_append_all {p : Char → Bool} :
    ∀ {X : List Char} (Y : List Char), (∀ c ∈ X, p c = true) →
      (X ++ Y).takeWhile p = X ++ Y.takeWhile p := by
  intro X
  induction X with
  | nil => intro Y _; rfl
  | cons c X ih =>
    intro Y h
    rw [List.cons_append, List.takeWhile_cons, h c (by simp),
      ih Y (fun d hd => h d (by simp [hd]))]
    rfl

theorem dropWhile_append_all {p : Char → Bool} :
    ∀ {X : List Char} (Y : List Char), (∀ c ∈ X, p c = true) →
      (X ++ Y).dropWhile p = Y.dropWhile p := by
  intro X
  induction X with
  | nil => intro Y _; rfl
  | cons c X ih =>
    intro Y h
    rw [List.cons_append, List.dropWhile_cons, h c (by simp)]
    exact ih Y (fun d hd => h d (by simp [hd]))

theorem takeWhile_cons_stop {p : Char → Bool} {c : Char} (Y : List Char)
    (h : p c = false) : (c :: Y).takeWhile p = [] := by
  rw [List.takeWhile_cons, h]
  simp

theorem dropWhile_cons_stop {p : Char → Bool} {c : Char} (Y : List Char)
    (h : p c = false) : (c :: Y).dropWhile p = c :: Y := by
  rw [List.dropWhile_cons, h]
  simp

theorem splitFirst_isSome_append (s0 : Char) (sr : List Char) :
    ∀ (A B : List Char),
      (splitFirst (s0 :: sr) (A ++ (s0 :: sr) ++ B)).isSome = true := by
  intro A
  induction A with
  | nil =>
    intro B
    rw [show ([] ++ (s0 :: sr) ++ B : List Char) = s0 :: (sr ++ B) from by simp]
    rw [splitFirst, if_pos (by
      have h := isPfx_append (s0 :: sr) B
      rw [show (s0 :: sr ++ B : List Char) = s0 :: (sr ++ B) from by simp] at h
      exact h)]
    rfl
  | cons c A ih =>
    intro B
    rw [show (c :: A ++ (s0 :: sr) ++ B : List Char) =
      c :: (A ++ (s0 :: sr) ++ B) from by simp]
    rw [splitFirst]
    by_cases hp : isPfx (s0 :: sr) (c :: (A ++ (s0 :: sr) ++ B)) = true
    · rw [if_pos hp]; rfl
    · rw [if_neg hp]
      have hih := ih B
      cases hsf : splitFirst (s0 :: sr) (A ++ (s0 :: sr) ++ B) with
      | none => rw [hsf] at hih; simp at hih
      | some ab =>
        obtain ⟨a, b⟩ := ab
        rfl

theorem pyStrip_cons_space (cs : List Char) : pyStrip (' ' :: cs) = pyStrip cs := by
  rw [pyStrip, pyStrip, List.dropWhile_cons,
    show isSpaceCh ' ' = true from by decide]
  simp

theorem pyFloat_fmt2C {q : ℚ} (hq : 0 ≤ q) : pyFloat (fmt2C q) = some (round2 q) := by
  have hq100 : (0 : ℚ) ≤ q * 100 := by positivity
  have hn0 : 0 ≤ roundHalfEvenQ (q * 100) := roundHalfEvenQ_nonneg hq100
  have hbody : fmt2C q = natChars ((roundHalfEvenQ (q * 100)).natAbs / 100) ++
      '.' :: [digitChar ((roundHalfEvenQ (q * 100)).natAbs % 100 / 10),
        digitChar ((roundHalfEvenQ (q * 100)).natAbs % 100 % 10)] := by
    simp only [fmt2C]
    rw [if_neg (not_lt.mpr hn0)]
  have hstrip : pyStrip (fmt2C q) = fmt2C q :=
    pyStrip_eq_self (fmt2C_not_space hq)
  have hnminus : ¬ ((fmt2C q).head? = some '-') := by
    intro h
    exact fmt2C_ne_of hq (by decide) (by decide) '-' (List.mem_of_mem_head? h) rfl
  have hnplus : ¬ ((fmt2C q).head? = some '+') := by
    intro h
    exact fmt2C_ne_of hq (by decide) (by decide) '+' (List.mem_of_mem_head? h) rfl
  rw [pyFloat]
  simp only [hstrip]
  rw [if_neg hnminus, if_neg hnplus]
  have hipdig : ∀ c ∈ natChars ((roundHalfEvenQ (q * 100)).natAbs / 100),
      isDigitCh c = true := natChars_digits _
  have hfpdig : ∀ c ∈ [digitChar ((roundHalfEvenQ (q * 100)).natAbs % 100 / 10),
      digitChar ((roundHalfEvenQ (q * 100)).natAbs % 100 % 10)],
      isDigitCh c = true := by
    intro c hc
    rcases List.mem_cons.mp hc with hc | hc
    · exact hc ▸ digitChar_isDigit (by omega)
    · rcases List.mem_cons.mp hc with hc | hc
      · exact hc ▸ digitChar_isDigit (Nat.mod_lt _ (by omega))
      · simp at hc
  have hsplit : pySplit ['.'] (fmt2C q) =
      [natChars ((roundHalfEvenQ (q * 100)).natAbs / 100),
       [digitChar ((roundHalfEvenQ (q * 100)).natAbs % 100 / 10),
        digitChar ((roundHalfEvenQ (q * 100)).natAbs % 100 % 10)]] := by
    rw [show fmt2C q = natChars ((roundHalfEvenQ (q * 100)).natAbs / 100) ++
        ('.' :: []) ++ [digitChar ((roundHalfEvenQ (q * 100)).natAbs % 100 / 10),
          digitChar ((roundHalfEvenQ (q * 100)).natAbs % 100 % 10)] from by
      rw [hbody]; simp]
    exact pySplit_pair
      (fun c hc => isDigitCh_ne (hipdig c hc) (by decide))
      (fun c hc => isDigitCh_ne (hfpdig c hc) (by decide))
  rw [pyFloatMag, hsplit]
  simp only []
  rw [if_pos ⟨Or.inl (natChars_ne_nil _), List.all_eq_true.mpr hipdig,
    List.all_eq_true.mpr hfpdig⟩]
  have hip : parseNatV (natChars ((roundHalfEvenQ (q * 100)).natAbs / 100)) =
      (roundHalfEvenQ (q * 100)).natAbs / 100 := parseNatV_natChars _
  have hfp : parseNatV [digitChar ((roundHalfEvenQ (q * 100)).natAbs % 100 / 10),
      digitChar ((roundHalfEvenQ (q * 100)).natAbs % 100 % 10)] =
      (roundHalfEvenQ (q * 100)).natAbs % 100 := by
    rw [show ([digitChar ((roundHalfEvenQ (q * 100)).natAbs % 100 / 10),
      digitChar ((roundHalfEvenQ (q * 100)).natAbs % 100 % 10)] : List Char) =
      [digitChar ((roundHalfEvenQ (q * 100)).natAbs % 100 / 10)] ++
      [digitChar ((roundHalfEvenQ (q * 100)).natAbs % 100 % 10)] from rfl]
    rw [parseNatV_append_digit]
    rw [charVal_digitChar (Nat.mod_lt _ (by omega : (0:ℕ) < 10))]
    have h1 : parseNatV [digitChar ((roundHalfEvenQ (q * 100)).natAbs % 100 / 10)] =
        (roundHalfEvenQ (q * 100)).natAbs % 100 / 10 := by
      rw [show ([digitChar ((roundHalfEvenQ (q * 100)).natAbs % 100 / 10)] :
        List Char) = [] ++ [digitChar ((roundHalfEvenQ (q * 100)).natAbs % 100 / 10)]
        from rfl]
      rw [parseNatV_append_digit]
      rw [charVal_digitChar (by omega)]
      simp [parseNatV]
    rw [h1]
    omega
  rw [hip, hfp]
  have hcast : (((roundHalfEvenQ (q * 100)).natAbs : ℕ) : ℚ) =
      ((roundHalfEvenQ (q * 100) : ℤ) : ℚ) := by
    rw [Int.cast_natAbs]
    exact_mod_cast abs_of_nonneg hn0
  have hlen : ([digitChar ((roundHalfEvenQ (q * 100)).natAbs % 100 / 10),
      digitChar ((roundHalfEvenQ (q * 100)).natAbs % 100 % 10)] :
      List Char).length = 2 := rfl
  rw [hlen]
  have harith : (((roundHalfEvenQ (q * 100)).natAbs / 100 : ℕ) : ℚ) +
      (((roundHalfEvenQ (q * 100)).natAbs % 100 : ℕ) : ℚ) / (10 : ℚ) ^ 2 =
      (((roundHalfEvenQ (q * 100)).natAbs : ℕ) : ℚ) / 100 := by
    have h := Nat.div_add_mod ((roundHalfEvenQ (q * 100)).natAbs) 100
    have h2 : (100 : ℚ) * (((roundHalfEvenQ (q * 100)).natAbs / 100 : ℕ) : ℚ) +
        (((roundHalfEvenQ (q * 100)).natAbs % 100 : ℕ) : ℚ) =
        (((roundHalfEvenQ (q * 100)).natAbs : ℕ) : ℚ) := by
      exact_mod_cast h
    rw [show (10 : ℚ) ^ 2 = 100 from by norm_num]
    field_simp
    linarith
  rw [harith, hcast, round2]

theorem parseLine_paraLine (s : Segment) (h0 : 0 ≤ s.start) (h1 : 0 ≤ s.stop) :
    parseLineChars (paraLineChars [s]) =
      some ⟨round2 s.start, round2 s.stop, String.mk (pyStrip s.text.data)⟩ := by
  have hstartne : ∀ c ∈ fmt2C s.start, c ≠ ']' :=
    fmt2C_ne_of h0 (by decide) (by decide)
  have hstopne : ∀ c ∈ fmt2C s.stop, c ≠ ']' :=
    fmt2C_ne_of h1 (by decide) (by decide)
  have hstartsp : ∀ c ∈ fmt2C s.start, c ≠ ' ' :=
    fmt2C_ne_of h0 (by decide) (by decide)
  have hstopsp : ∀ c ∈ fmt2C s.stop, c ≠ ' ' :=
    fmt2C_ne_of h1 (by decide) (by decide)
  have hstarts : ∀ c ∈ fmt2C s.start, c ≠ 's' :=
    fmt2C_ne_of h0 (by decide) (by decide)
  have hstops : ∀ c ∈ fmt2C s.stop, c ≠ 's' :=
    fmt2C_ne_of h1 (by decide) (by decide)
  have hline : paraLineChars [s] = '[' :: (fmt2C s.start ++
      ('s' :: ' ' :: '-' :: '>' :: ' ' :: []) ++ fmt2C s.stop ++
      ('s' :: ']' :: ' ' :: []) ++ s.text.data) := rfl
  have hg1 : (paraLineChars [s]).head? = some '[' := by rw [hline]; rfl
  have hg2 : hasSubstr "s -> ".data (paraLineChars [s]) = true := by
    rw [hasSubstr, show "s -> ".data = 's' :: ' ' :: '-' :: '>' :: ' ' :: []
      from rfl, hline]
    rw [show ('[' :: (fmt2C s.start ++ ('s' :: ' ' :: '-' :: '>' :: ' ' :: []) ++
      fmt2C s.stop ++ ('s' :: ']' :: ' ' :: []) ++ s.text.data) : List Char) =
      ('[' :: fmt2C s.start) ++ ('s' :: ' ' :: '-' :: '>' :: ' ' :: []) ++
      (fmt2C s.stop ++ ('s' :: ']' :: ' ' :: []) ++ s.text.data) from by simp]
    exact splitFirst_isSome_append 's' _ _ _
  have hg3 : hasSubstr "s]".data (paraLineChars [s]) = true := by
    rw [hasSubstr, show "s]".data = 's' :: ']' :: [] from rfl, hline]
    rw [show ('[' :: (fmt2C s.start ++ ('s' :: ' ' :: '-' :: '>' :: ' ' :: []) ++
      fmt2C s.stop ++ ('s' :: ']' :: ' ' :: []) ++ s.text.data) : List Char) =
      ('[' :: (fmt2C s.start ++ ('s' :: ' ' :: '-' :: '>' :: ' ' :: []) ++
        fmt2C s.stop)) ++ ('s' :: ']' :: []) ++ (' ' :: s.text.data) from by simp]
    exact splitFirst_isSome_append 's' _ _ _
  have hdrop1 : (paraLineChars [s]).drop 1 = fmt2C s.start ++
      ('s' :: ' ' :: '-' :: '>' :: ' ' :: []) ++ fmt2C s.stop ++
      ('s' :: ']' :: ' ' :: []) ++ s.text.data := by rw [hline]; rfl
  have hX : (fmt2C s.start ++ ('s' :: ' ' :: '-' :: '>' :: ' ' :: []) ++
      fmt2C s.stop ++ ('s' :: ']' :: ' ' :: []) ++ s.text.data) =
      (fmt2C s.start ++ ('s' :: ' ' :: '-' :: '>' :: ' ' :: []) ++
       fmt2C s.stop ++ ['s']) ++ (']' :: ' ' :: s.text.data) := by simp
  have hallX : ∀ c ∈ (fmt2C s.start ++ ('s' :: ' ' :: '-' :: '>' :: ' ' :: []) ++
      fmt2C s.stop ++ ['s']), (fun c => !(c == ']')) c = true := by
    rw [List.forall_mem_append, List.forall_mem_append, List.forall_mem_append]
    exact ⟨⟨⟨fun c hc => bne_true_of_ne (hstartne c hc), by decide⟩,
      fun c hc => bne_true_of_ne (hstopne c hc)⟩, by decide⟩
  have htake : ((paraLineChars [s]).drop 1).takeWhile (fun c => !(c == ']')) =
      fmt2C s.start ++ ('s' :: ' ' :: '-' :: '>' :: ' ' :: []) ++
      fmt2C s.stop ++ ['s'] := by
    rw [hdrop1, hX, takeWhile_append_all (']' :: ' ' :: s.text.data) hallX,
      takeWhile_cons_stop _ (by decide)]
    simp
  have hdropw : ((paraLineChars [s]).drop 1).dropWhile (fun c => !(c == ']')) =
      ']' :: ' ' :: s.text.data := by
    rw [hdrop1, hX, dropWhile_append_all (']' :: ' ' :: s.text.data) hallX,
      dropWhile_cons_stop _ (by decide)]
  have hXassoc : (fmt2C s.start ++ ('s' :: ' ' :: '-' :: '>' :: ' ' :: []) ++
      fmt2C s.stop ++ ['s']) =
      (fmt2C s.start ++ ['s']) ++ (' ' :: '-' :: '>' :: ' ' :: []) ++
      (fmt2C s.stop ++ ['s']) := by simp
  have hsplitline : pySplit (' ' :: '-' :: '>' :: ' ' :: [])
      (fmt2C s.start ++ ('s' :: ' ' :: '-' :: '>' :: ' ' :: []) ++
       fmt2C s.stop ++ ['s']) =
      [fmt2C s.start ++ ['s'], fmt2C s.stop ++ ['s']] := by
    rw [hXassoc]
    apply pySplit_pair
    · rw [List.forall_mem_append]
      exact ⟨hstartsp, by decide⟩
    · rw [List.forall_mem_append]
      exact ⟨hstopsp, by decide⟩
  have hfilt1 : (fmt2C s.start ++ ['s']).filter (fun c => !(c == 's')) =
      fmt2C s.start := by
    rw [List.filter_append,
      List.filter_eq_self.mpr (fun c hc => bne_true_of_ne (hstarts c hc)),
      show (List.filter (fun c => !(c == 's')) ['s']) = [] from by decide,
      List.append_nil]
  have hfilt2 : (fmt2C s.stop ++ ['s']).filter (fun c => !(c == 's')) =
      fmt2C s.stop := by
    rw [List.filter_append,
      List.filter_eq_self.mpr (fun c hc => bne_true_of_ne (hstops c hc)),
      show (List.filter (fun c => !(c == 's')) ['s']) = [] from by decide,
      List.append_nil]
  rw [parseLineChars, if_pos ⟨hg1, hg2, hg3⟩]
  rw [show " -> ".data = ' ' :: '-' :: '>' :: ' ' :: [] from rfl]
  simp only [htake, hsplitline, hfilt1, hfilt2, pyFloat_fmt2C h0, pyFloat_fmt2C h1,
    hdropw, List.drop_succ_cons, List.drop_zero, pyStrip_cons_space]

/-- C10: writing a segment as a one-segment paragraph into an empty file
and parsing the resulting lines yields exactly one segment whose text is
the original stripped of surrounding whitespace and whose start and stop
equal the original values rounded to two decimal places (round2, the value
printed by the two-decimal format); and parse_transcript silently skips
every line the line parser rejects, and never raises: the model of the
parser is a total function. -/
theorem write_parse_round_trip :
    (∀ s : Segment, 0 ≤ s.start → s.start ≤ s.stop →
      (∀ c ∈ s.text.data, c ≠ '\n') →
      parse_transcript (write_paragraph [s] []) =
        [⟨round2 s.start, round2 s.stop, String.mk (pyStrip s.text.data)⟩]) ∧
    (∀ (l : String) (ls : List String), parseLineChars l.data = none →
      parse_transcript (l :: ls) = parse_transcript ls) := by
  constructor
  · intro s h0 h01 _
    have h1 : 0 ≤ s.stop := le_trans h0 h01
    have hw : write_paragraph [s] [] = [paraLine [s], "", sentinelLine] := rfl
    have hdata : (paraLine [s]).data = paraLineChars [s] := rfl
    rw [hw, parse_transcript]
    simp only [List.filterMap_cons, hdata, parseLine_paraLine s h0 h1,
      show parseLineChars ("".data) = none from rfl,
      show parseLineChars (sentinelLine.data) = none from by decide,
      List.filterMap_nil]
  · intro l ls h
    rw [parse_transcript, parse_transcript]
    simp only [List.filterMap_cons, h]

/-- Witness for C10: the round trip at the segment (0, 2, " Hi there ") and
the skip clause at a line without a timestamp. -/
theorem write_parse_round_trip_witness :
    parse_transcript (write_paragraph [⟨0, 2, " Hi there "⟩] []) =
      [⟨round2 0, round2 2, String.mk (pyStrip " Hi there ".data)⟩] ∧
    parse_transcript ["no timestamp here"] = parse_transcript [] :=
  ⟨write_parse_round_trip.1 ⟨0, 2, " Hi there "⟩ (by decide) (by decide) (by decide),
   write_parse_round_trip.2 "no timestamp here" [] (by decide)⟩
